import Mathlib

/-!
# Verification of the leaflet scraping pipeline (`src/main.py`)

Shallow embedding of the extraction pipeline: the date-range parser
(`LeafletScraper.__parser_date`, embedded as an explicit backtracking
matcher for the regular expression
`(\d{2}\.\d{2}\.?(?:\d{4})?)\s*-\s*(\d{2}\.\d{2}\.\d{4})` under
`re.search` semantics: leftmost position, greedy optionals tried
dot-and-year, dot-only, year-only, neither), the `Leaflet` record and its
`to_dict` conversion, the `LeafletCollection` aggregate (a Python dict
modelled as an insertion-ordered association list), the per-fragment
field extractor (`__extract_leaflet_data`, whose `None`-dereferences on
missing elements are modelled as `Except` errors), and the orchestration
loop (`scrape_all_leaflets`), with the HTTP and HTML-selection
capabilities of the spec modelled as data (`Site`, `Element`).
-/

/-- The codepoint ranges of the Unicode decimal digits (category Nd):
exactly the characters Python's regex class `\d` matches on `str`.  The
ASCII range `0`-`9` comes first so the common case short-circuits. -/
def ndRanges : List (Nat × Nat) :=
  [(48, 57), (1632, 1641), (1776, 1785), (1984, 1993), (2406, 2415),
   (2534, 2543), (2662, 2671), (2790, 2799), (2918, 2927), (3046, 3055),
   (3174, 3183), (3302, 3311), (3430, 3439), (3558, 3567), (3664, 3673),
   (3792, 3801), (3872, 3881), (4160, 4169), (4240, 4249), (6112, 6121),
   (6160, 6169), (6470, 6479), (6608, 6617), (6784, 6793), (6800, 6809),
   (6992, 7001), (7088, 7097), (7232, 7241), (7248, 7257), (42528, 42537),
   (43216, 43225), (43264, 43273), (43472, 43481), (43504, 43513),
   (43600, 43609), (44016, 44025), (65296, 65305), (66720, 66729),
   (68912, 68921), (69734, 69743), (69872, 69881), (69942, 69951),
   (70096, 70105), (70384, 70393), (70736, 70745), (70864, 70873),
   (71248, 71257), (71360, 71369), (71472, 71481), (71904, 71913),
   (72016, 72025), (72784, 72793), (73040, 73049), (73120, 73129),
   (92768, 92777), (92864, 92873), (93008, 93017), (120782, 120831),
   (123200, 123209), (123632, 123641), (125264, 125273), (130032, 130041)]

/-- Membership of a codepoint in the Unicode decimal-digit ranges. -/
def isDigitV (v : Nat) : Bool :=
  ndRanges.any fun p => p.1 ≤ v && v ≤ p.2

/-- Models the regex class `\d` used in the date pattern: a Unicode
decimal digit, as Python matches it on `str`. -/
def isDigitC (c : Char) : Bool := isDigitV c.toNat

/-- The Unicode whitespace codepoints: exactly the characters Python's
regex class `\s` matches on `str`, and also exactly the characters
`str.strip()` with no argument strips. -/
def spaceCodes : List Nat :=
  [9, 10, 11, 12, 13, 28, 29, 30, 31, 32, 133, 160, 5760,
   8192, 8193, 8194, 8195, 8196, 8197, 8198, 8199, 8200, 8201, 8202,
   8232, 8233, 8239, 8287, 12288]

/-- Models the regex class `\s` used in the date pattern: Unicode
whitespace, as Python matches it on `str`. -/
def isSpaceC (c : Char) : Bool := decide (c.toNat ∈ spaceCodes)

/-- Match exactly `n` digits at the head of the input (regex `\d{n}`);
returns the consumed characters and the remainder. -/
def matchDigits : Nat → List Char → Option (List Char × List Char)
  | 0, s => some ([], s)
  | _ + 1, [] => none
  | n + 1, c :: rest =>
    if isDigitC c then
      (matchDigits n rest).bind fun p => some (c :: p.1, p.2)
    else none

/-- Match one literal character at the head of the input; returns the
remainder. -/
def matchChar (t : Char) (s : List Char) : Option (List Char) :=
  match s with
  | [] => none
  | c :: rest => if c = t then some rest else none

/-- Greedy `\s*` by maximal munch, returning the consumed whitespace and
the remainder.  Maximal munch is exact for this pattern: the required
characters that follow each `\s*` (a hyphen, a digit) are never
whitespace, so the regex engine never backtracks into `\s*` usefully. -/
def takeSpaces : List Char → List Char × List Char
  | [] => ([], [])
  | c :: rest =>
    if isSpaceC c then
      let p := takeSpaces rest
      (c :: p.1, p.2)
    else ([], c :: rest)

/-- The head of the list, when there is one, is not whitespace (so greedy
`\s*` consumes nothing of it). -/
def headNotSpace : List Char → Prop
  | [] => True
  | c :: _ => isSpaceC c = false

/-- Regex fragment `\d{2}\.\d{2}` (the mandatory head of the start token);
returns the consumed characters and the remainder. -/
def matchDD (s : List Char) : Option (List Char × List Char) :=
  (matchDigits 2 s).bind fun p1 =>
    (matchChar '.' p1.2).bind fun s2 =>
      (matchDigits 2 s2).bind fun p2 =>
        some (p1.1 ++ '.' :: p2.1, p2.2)

/-- Regex fragment `\d{2}\.\d{2}\.\d{4}` (the end token, capture group 2). -/
def matchEndTok (s : List Char) : Option (List Char × List Char) :=
  (matchDD s).bind fun p =>
    (matchChar '.' p.2).bind fun s2 =>
      (matchDigits 4 s2).bind fun y =>
        some (p.1 ++ '.' :: y.1, y.2)

/-- Regex fragment `\s*-\s*(\d{2}\.\d{2}\.\d{4})`: the part of the pattern
after capture group 1.  Returns the end group and the remainder. -/
def matchRest (s : List Char) : Option (List Char × List Char) :=
  (matchChar '-' (takeSpaces s).2).bind fun s1 =>
    matchEndTok (takeSpaces s1).2

/-- Branch of `\.?(?:\d{4})?` taking both the optional dot and the optional
year, then the rest of the pattern.  Returns the characters added to
group 1, group 2, and the remainder. -/
def altDotYear (s : List Char) : Option (List Char × List Char × List Char) :=
  (matchChar '.' s).bind fun s1 =>
    (matchDigits 4 s1).bind fun y =>
      (matchRest y.2).bind fun r =>
        some ('.' :: y.1, r.1, r.2)

/-- Branch of `\.?(?:\d{4})?` taking the dot but not the year. -/
def altDot (s : List Char) : Option (List Char × List Char × List Char) :=
  (matchChar '.' s).bind fun s1 =>
    (matchRest s1).bind fun r =>
      some (['.'], r.1, r.2)

/-- Branch of `\.?(?:\d{4})?` taking the year but not the dot. -/
def altYear (s : List Char) : Option (List Char × List Char × List Char) :=
  (matchDigits 4 s).bind fun y =>
    (matchRest y.2).bind fun r =>
      some (y.1, r.1, r.2)

/-- Branch of `\.?(?:\d{4})?` taking neither the dot nor the year. -/
def altEmpty (s : List Char) : Option (List Char × List Char × List Char) :=
  (matchRest s).bind fun r => some ([], r.1, r.2)

/-- Backtracking over the two greedy optionals `\.?(?:\d{4})?` followed by
the rest of the pattern, in exactly the order the regex engine explores
them: dot-and-year, dot-only, year-only, neither. -/
def matchTail (s : List Char) : Option (List Char × List Char × List Char) :=
  match altDotYear s with
  | some r => some r
  | none =>
    match altDot s with
    | some r => some r
    | none =>
      match altYear s with
      | some r => some r
      | none => altEmpty s

/-- Attempt the full pattern anchored at the start of `s`.  On success
returns (capture group 1, capture group 2). -/
def matchAt (s : List Char) : Option (List Char × List Char) :=
  (matchDD s).bind fun p =>
    (matchTail p.2).bind fun t =>
      some (p.1 ++ t.1, t.2.1)

/-- `re.search` semantics: try the pattern at each position from the left,
returning the first success. -/
def searchPat : List Char → Option (List Char × List Char)
  | [] => none
  | c :: rest =>
    match matchAt (c :: rest) with
    | some r => some r
    | none => searchPat rest

/-- `LeafletScraper.__parser_date`: search the text for the date pattern;
return the two capture groups, or two empty strings when the pattern does
not match anywhere.  A total function: it never raises. -/
def parser_date (dates : String) : String × String :=
  match searchPat dates.data with
  | none => ("", "")
  | some r => (String.mk r.1, String.mk r.2)

/-- Shape `DD.DD`: two digits, a dot, two digits. -/
def ddProp (l : List Char) : Prop :=
  ∃ a b c d, isDigitC a = true ∧ isDigitC b = true ∧ isDigitC c = true ∧
    isDigitC d = true ∧ l = [a, b, '.', c, d]

/-- Shape `YYYY`: exactly four digits. -/
def yearProp (l : List Char) : Prop :=
  l.length = 4 ∧ ∀ c ∈ l, isDigitC c = true

/-- Shape `DD.DD.YYYY` (the end token's language). -/
def endProp (l : List Char) : Prop :=
  ∃ p y, ddProp p ∧ yearProp y ∧ l = p ++ '.' :: y

/-- The possible continuations of the start token after its mandatory
`DD.DD` head, as the code's regex accepts them: nothing, a lone dot, a
dot followed by a year, or a year with no dot. -/
def tailProp (tl : List Char) : Prop :=
  tl = [] ∨ tl = ['.'] ∨ ∃ y, yearProp y ∧ (tl = '.' :: y ∨ tl = y)

/-- The start-token language actually accepted by the code's regex
`\d{2}\.\d{2}\.?(?:\d{4})?`: `DD.DD`, `DD.DD.`, `DD.DD.YYYY` or `DD.DDYYYY`. -/
def codeStartProp (l : List Char) : Prop :=
  ∃ p tl, ddProp p ∧ tailProp tl ∧ l = p ++ tl

/-- The start-token language as the spec describes it: `DD.DD` optionally
followed by `.YYYY`, i.e. exactly `DD.DD` or `DD.DD.YYYY`. -/
def specStartProp (l : List Char) : Prop :=
  ddProp l ∨ endProp l

/-- The text contains, somewhere, a start token (in the language `startP`),
a hyphen with optional surrounding whitespace, and an end token. -/
def containsPatternWith (startP : List Char → Prop) (s : List Char) : Prop :=
  ∃ pre d1 ws1 ws2 d2 post,
    s = pre ++ d1 ++ ws1 ++ '-' :: (ws2 ++ d2 ++ post) ∧
    startP d1 ∧ (∀ c ∈ ws1, isSpaceC c = true) ∧
    (∀ c ∈ ws2, isSpaceC c = true) ∧ endProp d2

/-- The `Leaflet` record: five content fields set at construction plus the
capture timestamp `parsed_time`. -/
structure Leaflet where
  title : String
  thumbnail : String
  shop_name : String
  valid_from : String
  valid_to : String
  parsed_time : String
deriving DecidableEq

/-- `Leaflet.to_dict`: the six-key object serialized for one leaflet,
modelled as an insertion-ordered association list (Python dicts preserve
insertion order). -/
def Leaflet.to_dict (l : Leaflet) : List (String × String) :=
  [("title", l.title), ("thumbnail", l.thumbnail), ("shop_name", l.shop_name),
   ("valid_from", l.valid_from), ("valid_to", l.valid_to),
   ("parsed_time", l.parsed_time)]

/-- `LeafletCollection`: the aggregate, a Python dict from retailer name to
a list of leaflets, modelled as an insertion-ordered association list. -/
structure LeafletCollection where
  collection : List (String × List Leaflet)
deriving DecidableEq

/-- `LeafletCollection.append`: if the key is absent insert it (a new dict
key goes to the end, with the empty list), then extend its list with
`data` in place.  Always succeeds. -/
def LeafletCollection.append (c : LeafletCollection) (key : String)
    (data : List Leaflet) : LeafletCollection :=
  if c.collection.any (fun p => p.1 == key) then
    ⟨c.collection.map fun p => if p.1 == key then (p.1, p.2 ++ data) else p⟩
  else
    ⟨c.collection ++ [(key, data)]⟩

/-- Dict lookup on the association-list model. -/
def lookupKey {α : Type} (rows : List (String × α)) (key : String) : Option α :=
  (rows.find? fun p => p.1 == key).map Prod.snd

/-- The loop body of `LeafletCollection.__serialize`: one output row per
key, each leaflet converted through `to_dict`, orders preserved. -/
def serializeRows :
    List (String × List Leaflet) → List (String × List (List (String × String)))
  | [] => []
  | (name, leaflets) :: rest =>
    (name, leaflets.map Leaflet.to_dict) :: serializeRows rest

/-- `LeafletCollection.__serialize`. -/
def LeafletCollection.serialize (c : LeafletCollection) :
    List (String × List (List (String × String))) :=
  serializeRows c.collection

/-- An HTML element handle, as exposed by the selection capability of the
spec: an attribute map and a text content. -/
structure Tag where
  attrs : List (String × String)
  text : String
deriving DecidableEq

/-- Attribute lookup on an element handle (`tag['name']`, as an `Option`). -/
def Tag.getAttr (t : Tag) (name : String) : Option String :=
  (t.attrs.find? fun p => p.1 == name).map Prod.snd

/-- One listing fragment, through the HTML selection capability: the
results of `select_one('picture img')` and `select_one(DATE_SELECTOR)`
on the fragment, each possibly absent. -/
structure Element where
  pictureImg : Option Tag
  dateSmall : Option Tag
deriving DecidableEq

/-- The unhandled Python errors `__extract_leaflet_data` can raise:
subscripting `None` (no image element), a missing `src` attribute, and
reading `.text` on `None` (no date element). -/
inductive ExtractError where
  | missingThumbnail
  | missingSrcAttr
  | missingDateElem
deriving DecidableEq

/-- `LeafletScraper.__extract_leaflet_data`: read the thumbnail `src`
(raising if the image element or the attribute is missing), read the date
text (raising if the date element is missing), parse the date range, and
build the `Leaflet`.  The wall-clock capture `datetime.now()` is modelled
by the `now` parameter. -/
def extract_leaflet_data (element : Element) (hypermarket_name : String)
    (now : String) : Except ExtractError Leaflet :=
  match element.pictureImg with
  | none => .error .missingThumbnail
  | some img =>
    match img.getAttr "src" with
    | none => .error .missingSrcAttr
    | some src =>
      match element.dateSmall with
      | none => .error .missingDateElem
      | some d =>
        let r := parser_date d.text
        .ok ⟨"Prospekt", src, hypermarket_name, r.1, r.2, now⟩

/-- One retailer link on the directory page: its text content and its
`href` attribute. -/
structure Link where
  text : String
  href : String

/-- The external world as the spec's HTTP + HTML-selection capabilities
deliver it: the retailer links selected on the directory page, and, for
each listing-page URL, the listing fragments selected on that page. -/
structure Site where
  hypermarketLinks : List Link
  leafletElements : String → List Element

/-- `LeafletScraper.base_url`. -/
def base_url : String := "https://www.prospektmaschine.de"

/-- Python `str.strip()` on the link text: drop leading and trailing
Unicode whitespace (the same character set `spaceCodes` as the regex
class `\s`). -/
def pyStrip (s : String) : String :=
  String.mk (((s.data.dropWhile isSpaceC).reverse.dropWhile isSpaceC).reverse)

/-- `LeafletScraper.__scrape_leaflets`: select all listing fragments on the
page and map each through the field extractor in document order; the first
extraction error aborts (propagates).  Zero fragments yield `.ok []`. -/
def scrape_leaflets (site : Site) (url : String) (hypermarket_name : String)
    (now : String) : Except ExtractError (List Leaflet) :=
  (site.leafletElements url).mapM fun e =>
    extract_leaflet_data e hypermarket_name now

/-- The retailer loop of `scrape_all_leaflets`: for each link in order,
scrape its listing page and append the result under the stripped link
text; an extraction error aborts the whole run. -/
def scrapeLinksAux (site : Site) (now : String) :
    List Link → LeafletCollection → Except ExtractError LeafletCollection
  | [], acc => .ok acc
  | link :: rest, acc =>
    match scrape_leaflets site (base_url ++ link.href) (pyStrip link.text) now with
    | .error e => .error e
    | .ok leaflets =>
      scrapeLinksAux site now rest (acc.append (pyStrip link.text) leaflets)

/-- `LeafletScraper.scrape_all_leaflets`: start from the empty collection
and process every retailer link of the directory page in order. -/
def scrape_all_leaflets (site : Site) (now : String) :
    Except ExtractError LeafletCollection :=
  scrapeLinksAux site now site.hypermarketLinks ⟨[]⟩

/-- Sample record used to exercise the aggregate operations on concrete
data. -/
def sampleLeaflet (thumb : String) : Leaflet :=
  ⟨"Prospekt", thumb, "ShopA", "01.03", "07.03.2024", "2024-03-01 00:00:00"⟩

/-- Sample two-retailer aggregate. -/
def sampleCollection : LeafletCollection :=
  ⟨[("ShopA", [sampleLeaflet "/img1.jpg"]), ("ShopB", [sampleLeaflet "/img2.jpg"])]⟩

/-- Sample listing fragment with a thumbnail and a date text. -/
def sampleFragment : Element :=
  ⟨some ⟨[("src", "/img1.jpg")], ""⟩, some ⟨[], "Angebote 01.03 - 07.03.2024"⟩⟩

/-- Sample site: two retailer links, one listing on the first page, none on
the second. -/
def sampleSite : Site :=
  ⟨[⟨"ShopA", "/a/"⟩, ⟨"ShopB", "/b/"⟩],
   fun url => if url = base_url ++ "/a/" then [sampleFragment] else []⟩

theorem isSpaceC_not_digit {c : Char} (h : isSpaceC c = true) : isDigitC c = false := by
  have hmem : c.toNat ∈ spaceCodes := of_decide_eq_true h
  have hall : ∀ v ∈ spaceCodes, isDigitV v = false := by decide
  exact hall c.toNat hmem

theorem isDigitC_not_space {c : Char} (h : isDigitC c = true) : isSpaceC c = false := by
  by_contra hc
  rw [Bool.not_eq_false] at hc
  rw [isSpaceC_not_digit hc] at h
  exact Bool.noConfusion h

theorem isDigitC_ne_dot {c : Char} (h : isDigitC c = true) : c ≠ '.' := by
  rintro rfl; exact absurd h (by decide)

theorem isSpaceC_ne_dot {c : Char} (h : isSpaceC c = true) : c ≠ '.' := by
  rintro rfl; exact absurd h (by decide)

theorem matchDigits_sound : ∀ {n : Nat} {s cs r : List Char},
    matchDigits n s = some (cs, r) →
    s = cs ++ r ∧ cs.length = n ∧ ∀ c ∈ cs, isDigitC c = true := by
  intro n
  induction n with
  | zero =>
    intro s cs r h
    simp only [matchDigits, Option.some_inj, Prod.mk.injEq] at h
    obtain ⟨rfl, rfl⟩ := h
    simp
  | succ n ih =>
    intro s cs r h
    match s with
    | [] => exact absurd h (by simp [matchDigits])
    | c :: rest =>
      rw [matchDigits] at h
      by_cases hd : isDigitC c
      · rw [if_pos hd] at h
        cases hm : matchDigits n rest with
        | none => rw [hm] at h; exact absurd h (by simp)
        | some p =>
          rw [hm] at h
          simp only [Option.some_bind, Option.some_inj, Prod.mk.injEq] at h
          obtain ⟨rfl, rfl⟩ := h
          obtain ⟨h1, h2, h3⟩ := ih hm
          refine ⟨by rw [h1]; rfl, by simp [h2], ?_⟩
          intro x hx
          rcases List.mem_cons.mp hx with rfl | hx
          · exact hd
          · exact h3 x hx
      · rw [if_neg hd] at h; exact absurd h (by simp)

theorem matchDigits_complete {n : Nat} {cs : List Char} (r : List Char)
    (hlen : cs.length = n) (hdig : ∀ c ∈ cs, isDigitC c = true) :
    matchDigits n (cs ++ r) = some (cs, r) := by
  subst hlen
  induction cs with
  | nil => rfl
  | cons c cs ih =>
    have hc : isDigitC c = true := hdig c (by simp)
    simp only [List.length_cons, List.cons_append, matchDigits, hc, if_pos, List.append_eq]
    rw [ih (fun x hx => hdig x (by simp [hx]))]
    rfl

theorem matchDigits_none_head {n : Nat} {c : Char} {rest : List Char}
    (h : isDigitC c = false) : matchDigits (n + 1) (c :: rest) = none := by
  simp [matchDigits, h]

theorem matchDigits_none_nil {n : Nat} : matchDigits (n + 1) [] = none := rfl

theorem matchChar_sound : ∀ {t : Char} {s r : List Char},
    matchChar t s = some r → s = t :: r := by
  intro t s r h
  match s with
  | [] => exact absurd h (by simp [matchChar])
  | c :: rest =>
    rw [matchChar] at h
    by_cases hc : c = t
    · rw [if_pos hc] at h
      cases h
      rw [hc]
    · rw [if_neg hc] at h; exact absurd h (by simp)

theorem matchChar_complete (t : Char) (r : List Char) :
    matchChar t (t :: r) = some r := by
  simp [matchChar]

theorem matchChar_none {t c : Char} {rest : List Char} (h : c ≠ t) :
    matchChar t (c :: rest) = none := by
  simp [matchChar, h]

theorem takeSpaces_append (s : List Char) :
    (takeSpaces s).1 ++ (takeSpaces s).2 = s := by
  induction s with
  | nil => rfl
  | cons c rest ih =>
    rw [takeSpaces]
    by_cases hc : isSpaceC c
    · simp only [if_pos hc]
      simpa using ih
    · simp [if_neg hc]

theorem takeSpaces_spaces (s : List Char) :
    ∀ c ∈ (takeSpaces s).1, isSpaceC c = true := by
  induction s with
  | nil => intro c hc; exact absurd hc (by simp [takeSpaces])
  | cons c rest ih =>
    intro x hx
    rw [takeSpaces] at hx
    by_cases hc : isSpaceC c
    · simp only [if_pos hc] at hx
      rcases List.mem_cons.mp hx with rfl | hx
      · exact hc
      · exact ih x hx
    · simp [if_neg hc] at hx

theorem headNotSpace_cons {c : Char} {rest : List Char} (h : isSpaceC c = false) :
    headNotSpace (c :: rest) := h

theorem takeSpaces_complete : ∀ {ws : List Char} (r : List Char),
    (∀ c ∈ ws, isSpaceC c = true) → headNotSpace r →
    takeSpaces (ws ++ r) = (ws, r) := by
  intro ws
  induction ws with
  | nil =>
    intro r _ hr
    match r with
    | [] => rfl
    | c :: rest =>
      rw [headNotSpace] at hr
      simp [takeSpaces, hr]
  | cons c ws ih =>
    intro r h hr
    have hc : isSpaceC c = true := h c (by simp)
    simp only [List.cons_append, takeSpaces, if_pos hc, List.append_eq]
    rw [ih r (fun x hx => h x (by simp [hx])) hr]

theorem list_len2 {l : List Char} (h : l.length = 2) : ∃ a b, l = [a, b] := by
  rcases l with _ | ⟨a, l⟩
  · simp at h
  rcases l with _ | ⟨b, l⟩
  · simp at h
  rcases l with _ | ⟨c, l⟩
  · exact ⟨a, b, rfl⟩
  · simp at h

theorem matchDD_sound {s p r : List Char} (h : matchDD s = some (p, r)) :
    s = p ++ r ∧ ddProp p := by
  rw [matchDD] at h
  rcases h1 : matchDigits 2 s with _ | ⟨d1, s1⟩ <;> rw [h1] at h
  · exact absurd h (by simp)
  simp only [Option.some_bind] at h
  rcases h2 : matchChar '.' s1 with _ | s2 <;> rw [h2] at h
  · exact absurd h (by simp)
  simp only [Option.some_bind] at h
  rcases h3 : matchDigits 2 s2 with _ | ⟨d2, s3⟩ <;> rw [h3] at h
  · exact absurd h (by simp)
  simp only [Option.some_bind, Option.some_inj, Prod.mk.injEq] at h
  obtain ⟨rfl, rfl⟩ := h
  obtain ⟨e1, l1, g1⟩ := matchDigits_sound h1
  obtain ⟨e3, l3, g3⟩ := matchDigits_sound h3
  have e2 := matchChar_sound h2
  obtain ⟨a, b, rfl⟩ := list_len2 l1
  obtain ⟨c, d, rfl⟩ := list_len2 l3
  refine ⟨?_, a, b, c, d, g1 a (by simp), g1 b (by simp),
    g3 c (by simp), g3 d (by simp), by simp⟩
  rw [e1, e2, e3]
  simp

theorem matchDD_complete {p : List Char} (r : List Char) (h : ddProp p) :
    matchDD (p ++ r) = some (p, r) := by
  obtain ⟨a, b, c, d, ha, hb, hc, hd, rfl⟩ := h
  have h1 : matchDigits 2 ([a, b] ++ ('.' :: ([c, d] ++ r))) =
      some ([a, b], '.' :: ([c, d] ++ r)) :=
    matchDigits_complete _ rfl
      (by intro x hx; simp at hx; rcases hx with rfl | rfl <;> assumption)
  have h3 : matchDigits 2 ([c, d] ++ r) = some ([c, d], r) :=
    matchDigits_complete _ rfl
      (by intro x hx; simp at hx; rcases hx with rfl | rfl <;> assumption)
  rw [matchDD]
  rw [show ([a, b, '.', c, d] : List Char) ++ r = [a, b] ++ ('.' :: ([c, d] ++ r)) by simp]
  rw [h1]
  simp only [Option.some_bind]
  rw [matchChar_complete]
  simp only [Option.some_bind]
  rw [h3]
  rfl

theorem matchEndTok_sound {s e r : List Char} (h : matchEndTok s = some (e, r)) :
    s = e ++ r ∧ endProp e := by
  rw [matchEndTok] at h
  rcases h1 : matchDD s with _ | ⟨p, s1⟩ <;> rw [h1] at h
  · exact absurd h (by simp)
  simp only [Option.some_bind] at h
  rcases h2 : matchChar '.' s1 with _ | s2 <;> rw [h2] at h
  · exact absurd h (by simp)
  simp only [Option.some_bind] at h
  rcases h3 : matchDigits 4 s2 with _ | ⟨y, s3⟩ <;> rw [h3] at h
  · exact absurd h (by simp)
  simp only [Option.some_bind, Option.some_inj, Prod.mk.injEq] at h
  obtain ⟨rfl, rfl⟩ := h
  obtain ⟨e1, g1⟩ := matchDD_sound h1
  have e2 := matchChar_sound h2
  obtain ⟨e3, l3, g3⟩ := matchDigits_sound h3
  refine ⟨?_, p, y, g1, ⟨l3, g3⟩, rfl⟩
  rw [e1, e2, e3]
  simp

theorem matchEndTok_complete {e : List Char} (r : List Char) (h : endProp e) :
    matchEndTok (e ++ r) = some (e, r) := by
  obtain ⟨p, y, hp, ⟨hy4, hyd⟩, rfl⟩ := h
  have h3 : matchDigits 4 (y ++ r) = some (y, r) := by
    have hh := matchDigits_complete r rfl hyd
    rwa [hy4] at hh
  rw [matchEndTok]
  rw [show (p ++ '.' :: y) ++ r = p ++ ('.' :: (y ++ r)) by simp]
  rw [matchDD_complete _ hp]
  simp only [Option.some_bind]
  rw [matchChar_complete]
  simp only [Option.some_bind]
  rw [h3]
  rfl

theorem endProp_head {e : List Char} (h : endProp e) :
    ∃ a t, e = a :: t ∧ isDigitC a = true := by
  obtain ⟨p, y, ⟨a, b, c, d, ha, _, _, _, rfl⟩, _, rfl⟩ := h
  exact ⟨a, _, rfl, ha⟩

theorem matchRest_sound {s e r : List Char} (h : matchRest s = some (e, r)) :
    ∃ ws1 ws2, (∀ c ∈ ws1, isSpaceC c = true) ∧ (∀ c ∈ ws2, isSpaceC c = true) ∧
      s = ws1 ++ '-' :: (ws2 ++ e ++ r) ∧ endProp e := by
  rw [matchRest] at h
  rcases h1 : matchChar '-' (takeSpaces s).2 with _ | s1 <;> rw [h1] at h
  · exact absurd h (by simp)
  simp only [Option.some_bind] at h
  obtain ⟨he, hend⟩ := matchEndTok_sound h
  refine ⟨(takeSpaces s).1, (takeSpaces s1).1, takeSpaces_spaces s,
    takeSpaces_spaces s1, ?_, hend⟩
  conv_lhs => rw [← takeSpaces_append s]
  rw [matchChar_sound h1]
  conv_lhs => rw [← takeSpaces_append s1]
  rw [he]
  simp

theorem matchRest_complete {ws1 ws2 e : List Char} (r : List Char)
    (h1 : ∀ c ∈ ws1, isSpaceC c = true) (h2 : ∀ c ∈ ws2, isSpaceC c = true)
    (he : endProp e) :
    matchRest (ws1 ++ '-' :: (ws2 ++ e ++ r)) = some (e, r) := by
  obtain ⟨a, t, hat, ha⟩ := endProp_head he
  rw [matchRest]
  rw [takeSpaces_complete ('-' :: (ws2 ++ e ++ r)) h1 (headNotSpace_cons (by decide))]
  rw [matchChar_complete]
  simp only [Option.some_bind]
  have hws2 : ws2 ++ e ++ r = ws2 ++ (e ++ r) := by simp
  have hns : headNotSpace (e ++ r) := by
    rw [hat, List.cons_append]
    exact headNotSpace_cons (isDigitC_not_space ha)
  rw [hws2, takeSpaces_complete (e ++ r) h2 hns]
  exact matchEndTok_complete r he

theorem yearProp_head {y : List Char} (h : yearProp y) :
    ∃ a t, y = a :: t ∧ isDigitC a = true := by
  obtain ⟨hlen, hdig⟩ := h
  rcases y with _ | ⟨a, t⟩
  · simp at hlen
  · exact ⟨a, t, rfl, hdig a (by simp)⟩

theorem altDotYear_sound {s tl e r : List Char}
    (h : altDotYear s = some (tl, e, r)) :
    ∃ y ws1 ws2, yearProp y ∧ tl = '.' :: y ∧
      (∀ c ∈ ws1, isSpaceC c = true) ∧ (∀ c ∈ ws2, isSpaceC c = true) ∧
      s = tl ++ (ws1 ++ '-' :: (ws2 ++ e ++ r)) ∧ endProp e := by
  rw [altDotYear] at h
  rcases h1 : matchChar '.' s with _ | s1 <;> rw [h1] at h
  · exact absurd h (by simp)
  simp only [Option.some_bind] at h
  rcases h2 : matchDigits 4 s1 with _ | ⟨y, s2⟩ <;> rw [h2] at h
  · exact absurd h (by simp)
  simp only [Option.some_bind] at h
  rcases h3 : matchRest s2 with _ | ⟨e', r'⟩ <;> rw [h3] at h
  · exact absurd h (by simp)
  simp only [Option.some_bind, Option.some_inj, Prod.mk.injEq] at h
  obtain ⟨rfl, rfl, rfl⟩ := h
  obtain ⟨e2, l2, g2⟩ := matchDigits_sound h2
  obtain ⟨ws1, ws2, g1, g2', hdec, hend⟩ := matchRest_sound h3
  refine ⟨y, ws1, ws2, ⟨l2, g2⟩, rfl, g1, g2', ?_, hend⟩
  rw [matchChar_sound h1, e2, hdec]
  simp

theorem altDot_sound {s tl e r : List Char} (h : altDot s = some (tl, e, r)) :
    tl = ['.'] ∧ ∃ ws1 ws2,
      (∀ c ∈ ws1, isSpaceC c = true) ∧ (∀ c ∈ ws2, isSpaceC c = true) ∧
      s = tl ++ (ws1 ++ '-' :: (ws2 ++ e ++ r)) ∧ endProp e := by
  rw [altDot] at h
  rcases h1 : matchChar '.' s with _ | s1 <;> rw [h1] at h
  · exact absurd h (by simp)
  simp only [Option.some_bind] at h
  rcases h2 : matchRest s1 with _ | ⟨e', r'⟩ <;> rw [h2] at h
  · exact absurd h (by simp)
  simp only [Option.some_bind, Option.some_inj, Prod.mk.injEq] at h
  obtain ⟨rfl, rfl, rfl⟩ := h
  obtain ⟨ws1, ws2, g1, g2, hdec, hend⟩ := matchRest_sound h2
  refine ⟨rfl, ws1, ws2, g1, g2, ?_, hend⟩
  rw [matchChar_sound h1, hdec]
  simp

theorem altYear_sound {s tl e r : List Char} (h : altYear s = some (tl, e, r)) :
    yearProp tl ∧ ∃ ws1 ws2,
      (∀ c ∈ ws1, isSpaceC c = true) ∧ (∀ c ∈ ws2, isSpaceC c = true) ∧
      s = tl ++ (ws1 ++ '-' :: (ws2 ++ e ++ r)) ∧ endProp e := by
  rw [altYear] at h
  rcases h1 : matchDigits 4 s with _ | ⟨y, s1⟩ <;> rw [h1] at h
  · exact absurd h (by simp)
  simp only [Option.some_bind] at h
  rcases h2 : matchRest s1 with _ | ⟨e', r'⟩ <;> rw [h2] at h
  · exact absurd h (by simp)
  simp only [Option.some_bind, Option.some_inj, Prod.mk.injEq] at h
  obtain ⟨rfl, rfl, rfl⟩ := h
  obtain ⟨e1, l1, g1⟩ := matchDigits_sound h1
  obtain ⟨ws1, ws2, g2, g3, hdec, hend⟩ := matchRest_sound h2
  refine ⟨⟨l1, g1⟩, ws1, ws2, g2, g3, ?_, hend⟩
  rw [e1, hdec]

theorem altEmpty_sound {s tl e r : List Char} (h : altEmpty s = some (tl, e, r)) :
    tl = [] ∧ ∃ ws1 ws2,
      (∀ c ∈ ws1, isSpaceC c = true) ∧ (∀ c ∈ ws2, isSpaceC c = true) ∧
      s = tl ++ (ws1 ++ '-' :: (ws2 ++ e ++ r)) ∧ endProp e := by
  rw [altEmpty] at h
  rcases h1 : matchRest s with _ | ⟨e', r'⟩ <;> rw [h1] at h
  · exact absurd h (by simp)
  simp only [Option.some_bind, Option.some_inj, Prod.mk.injEq] at h
  obtain ⟨rfl, rfl, rfl⟩ := h
  obtain ⟨ws1, ws2, g1, g2, hdec, hend⟩ := matchRest_sound h1
  refine ⟨rfl, ws1, ws2, g1, g2, ?_, hend⟩
  rw [hdec]
  simp

theorem matchTail_sound {s tl e r : List Char} (h : matchTail s = some (tl, e, r)) :
    tailProp tl ∧ ∃ ws1 ws2,
      (∀ c ∈ ws1, isSpaceC c = true) ∧ (∀ c ∈ ws2, isSpaceC c = true) ∧
      s = tl ++ (ws1 ++ '-' :: (ws2 ++ e ++ r)) ∧ endProp e := by
  rw [matchTail] at h
  rcases h1 : altDotYear s with _ | r1 <;> rw [h1] at h
  · rcases h2 : altDot s with _ | r2 <;> rw [h2] at h
    · rcases h3 : altYear s with _ | r3 <;> rw [h3] at h
      · obtain ⟨htl, rest⟩ := altEmpty_sound h
        exact ⟨Or.inl htl, rest⟩
      · cases h
        obtain ⟨htl, rest⟩ := altYear_sound h3
        exact ⟨Or.inr (Or.inr ⟨tl, htl, Or.inr rfl⟩), rest⟩
    · cases h
      obtain ⟨htl, rest⟩ := altDot_sound h2
      exact ⟨Or.inr (Or.inl htl), rest⟩
  · cases h
    obtain ⟨y, ws1, ws2, hy, htl, g1, g2, hdec, hend⟩ := altDotYear_sound h1
    exact ⟨Or.inr (Or.inr ⟨y, hy, Or.inl htl⟩), ws1, ws2, g1, g2, hdec, hend⟩

theorem matchAt_sound {s a b : List Char} (h : matchAt s = some (a, b)) :
    ∃ ws1 ws2 r, s = a ++ (ws1 ++ '-' :: (ws2 ++ b ++ r)) ∧
      (∀ c ∈ ws1, isSpaceC c = true) ∧ (∀ c ∈ ws2, isSpaceC c = true) ∧
      codeStartProp a ∧ endProp b := by
  rw [matchAt] at h
  rcases h1 : matchDD s with _ | ⟨p, s1⟩ <;> rw [h1] at h
  · exact absurd h (by simp)
  simp only [Option.some_bind] at h
  rcases h2 : matchTail s1 with _ | ⟨tl, e, r'⟩ <;> rw [h2] at h
  · exact absurd h (by simp)
  simp only [Option.some_bind, Option.some_inj, Prod.mk.injEq] at h
  obtain ⟨rfl, rfl⟩ := h
  obtain ⟨e1, hdd⟩ := matchDD_sound h1
  obtain ⟨htl, ws1, ws2, g1, g2, hdec, hend⟩ := matchTail_sound h2
  refine ⟨ws1, ws2, r', ?_, g1, g2, ⟨p, tl, hdd, htl, rfl⟩, hend⟩
  rw [e1, hdec]
  simp

theorem altDotYear_none_head {c : Char} {xs : List Char} (h : c ≠ '.') :
    altDotYear (c :: xs) = none := by
  rw [altDotYear, matchChar_none h]
  rfl

theorem altDot_none_head {c : Char} {xs : List Char} (h : c ≠ '.') :
    altDot (c :: xs) = none := by
  rw [altDot, matchChar_none h]
  rfl

theorem altYear_none_head {c : Char} {xs : List Char} (h : isDigitC c = false) :
    altYear (c :: xs) = none := by
  rw [altYear, matchDigits_none_head h]
  rfl

/-- At the start of the remainder `ws1 ++ '-' :: …` the head character is a
space or the hyphen: never a dot and never a digit. -/
theorem rest_head_shape {ws1 : List Char} (rest : List Char)
    (hws1 : ∀ c ∈ ws1, isSpaceC c = true) :
    ∃ c xs, ws1 ++ '-' :: rest = c :: xs ∧ c ≠ '.' ∧ isDigitC c = false := by
  rcases ws1 with _ | ⟨c, ws⟩
  · exact ⟨'-', rest, rfl, by decide, by decide⟩
  · have hc := hws1 c (by simp)
    exact ⟨c, ws ++ '-' :: rest, rfl, isSpaceC_ne_dot hc, isSpaceC_not_digit hc⟩

theorem matchTail_complete_empty {ws1 ws2 e : List Char} (r : List Char)
    (h1 : ∀ c ∈ ws1, isSpaceC c = true) (h2 : ∀ c ∈ ws2, isSpaceC c = true)
    (he : endProp e) :
    matchTail (ws1 ++ '-' :: (ws2 ++ e ++ r)) = some ([], e, r) := by
  obtain ⟨c, xs, hcons, hdot, hdig⟩ := rest_head_shape (ws2 ++ e ++ r) h1
  rw [matchTail, hcons, altDotYear_none_head hdot, altDot_none_head hdot,
    altYear_none_head hdig, altEmpty, ← hcons, matchRest_complete r h1 h2 he]
  rfl

theorem matchTail_complete_dot {ws1 ws2 e : List Char} (r : List Char)
    (h1 : ∀ c ∈ ws1, isSpaceC c = true) (h2 : ∀ c ∈ ws2, isSpaceC c = true)
    (he : endProp e) :
    matchTail ('.' :: (ws1 ++ '-' :: (ws2 ++ e ++ r))) = some (['.'], e, r) := by
  obtain ⟨c, xs, hcons, _, hdig⟩ := rest_head_shape (ws2 ++ e ++ r) h1
  rw [matchTail, altDotYear, matchChar_complete]
  simp only [Option.some_bind]
  rw [hcons, matchDigits_none_head hdig]
  simp only [Option.none_bind]
  rw [altDot, matchChar_complete]
  simp only [Option.some_bind]
  rw [← hcons, matchRest_complete r h1 h2 he]
  rfl

theorem matchTail_complete_dot_year {y ws1 ws2 e : List Char} (r : List Char)
    (hy : yearProp y)
    (h1 : ∀ c ∈ ws1, isSpaceC c = true) (h2 : ∀ c ∈ ws2, isSpaceC c = true)
    (he : endProp e) :
    matchTail ('.' :: (y ++ (ws1 ++ '-' :: (ws2 ++ e ++ r)))) =
      some ('.' :: y, e, r) := by
  have h4 : matchDigits 4 (y ++ (ws1 ++ '-' :: (ws2 ++ e ++ r))) =
      some (y, ws1 ++ '-' :: (ws2 ++ e ++ r)) := by
    have hh := matchDigits_complete (ws1 ++ '-' :: (ws2 ++ e ++ r)) rfl hy.2
    rwa [hy.1] at hh
  rw [matchTail, altDotYear, matchChar_complete]
  simp only [Option.some_bind]
  rw [h4]
  simp only [Option.some_bind]
  rw [matchRest_complete r h1 h2 he]
  rfl

theorem matchTail_complete_year {y ws1 ws2 e : List Char} (r : List Char)
    (hy : yearProp y)
    (h1 : ∀ c ∈ ws1, isSpaceC c = true) (h2 : ∀ c ∈ ws2, isSpaceC c = true)
    (he : endProp e) :
    matchTail (y ++ (ws1 ++ '-' :: (ws2 ++ e ++ r))) = some (y, e, r) := by
  obtain ⟨a, t, hat, ha⟩ := yearProp_head hy
  have h4 : matchDigits 4 (y ++ (ws1 ++ '-' :: (ws2 ++ e ++ r))) =
      some (y, ws1 ++ '-' :: (ws2 ++ e ++ r)) := by
    have hh := matchDigits_complete (ws1 ++ '-' :: (ws2 ++ e ++ r)) rfl hy.2
    rwa [hy.1] at hh
  have hhead : y ++ (ws1 ++ '-' :: (ws2 ++ e ++ r)) =
      a :: (t ++ (ws1 ++ '-' :: (ws2 ++ e ++ r))) := by rw [hat]; rfl
  rw [matchTail, hhead, altDotYear_none_head (isDigitC_ne_dot ha),
    altDot_none_head (isDigitC_ne_dot ha), ← hhead, altYear, h4]
  simp only [Option.some_bind]
  rw [matchRest_complete r h1 h2 he]
  rfl

theorem matchAt_complete {d1 ws1 ws2 d2 : List Char} (post : List Char)
    (hd1 : codeStartProp d1) (hws1 : ∀ c ∈ ws1, isSpaceC c = true)
    (hws2 : ∀ c ∈ ws2, isSpaceC c = true) (hd2 : endProp d2) :
    ∃ a b, matchAt (d1 ++ (ws1 ++ '-' :: (ws2 ++ d2 ++ post))) = some (a, b) := by
  obtain ⟨p, tl, hp, htl, rfl⟩ := hd1
  have hassoc : (p ++ tl) ++ (ws1 ++ '-' :: (ws2 ++ d2 ++ post)) =
      p ++ (tl ++ (ws1 ++ '-' :: (ws2 ++ d2 ++ post))) := by simp
  rcases htl with rfl | rfl | ⟨y, hy, rfl | rfl⟩
  · refine ⟨p, d2, ?_⟩
    rw [hassoc, matchAt, List.nil_append, matchDD_complete _ hp]
    simp only [Option.some_bind]
    rw [matchTail_complete_empty post hws1 hws2 hd2]
    simp
  · refine ⟨p ++ ['.'], d2, ?_⟩
    rw [hassoc, matchAt, matchDD_complete _ hp]
    simp only [Option.some_bind]
    rw [List.cons_append, List.nil_append, matchTail_complete_dot post hws1 hws2 hd2]
    simp
  · refine ⟨p ++ '.' :: y, d2, ?_⟩
    rw [hassoc, matchAt, matchDD_complete _ hp]
    simp only [Option.some_bind]
    rw [List.cons_append, matchTail_complete_dot_year post hy hws1 hws2 hd2]
    simp
  · refine ⟨p ++ tl, d2, ?_⟩
    rw [hassoc, matchAt, matchDD_complete _ hp]
    simp only [Option.some_bind]
    rw [matchTail_complete_year post hy hws1 hws2 hd2]
    simp

theorem matchAt_nil : matchAt ([] : List Char) = none := rfl

theorem searchPat_sound : ∀ {s a b : List Char}, searchPat s = some (a, b) →
    ∃ pre ws1 ws2 r, s = pre ++ (a ++ (ws1 ++ '-' :: (ws2 ++ b ++ r))) ∧
      (∀ c ∈ ws1, isSpaceC c = true) ∧ (∀ c ∈ ws2, isSpaceC c = true) ∧
      codeStartProp a ∧ endProp b := by
  intro s
  induction s with
  | nil => intro a b h; exact absurd h (by simp [searchPat])
  | cons c rest ih =>
    intro a b h
    rw [searchPat] at h
    cases hm : matchAt (c :: rest) with
    | some r0 =>
      rw [hm] at h
      cases h
      obtain ⟨ws1, ws2, r, hdec, g1, g2, hstart, hend⟩ := matchAt_sound hm
      exact ⟨[], ws1, ws2, r, by simpa using hdec, g1, g2, hstart, hend⟩
    | none =>
      rw [hm] at h
      obtain ⟨pre, ws1, ws2, r, hdec, g1, g2, hstart, hend⟩ := ih h
      exact ⟨c :: pre, ws1, ws2, r, by rw [List.cons_append, ← hdec], g1, g2,
        hstart, hend⟩

theorem searchPat_complete_sfx : ∀ (pre u : List Char),
    (matchAt u).isSome = true → (searchPat (pre ++ u)).isSome = true := by
  intro pre
  induction pre with
  | nil =>
    intro u h
    match u with
    | [] => rw [matchAt_nil] at h; exact absurd h (by simp)
    | c :: rest =>
      rw [List.nil_append, searchPat]
      cases hm : matchAt (c :: rest) with
      | some r0 => simp
      | none => rw [hm] at h; exact absurd h (by simp)
  | cons c pre ih =>
    intro u h
    rw [List.cons_append, searchPat]
    cases hm : matchAt (c :: (pre ++ u)) with
    | some r0 => simp
    | none => exact ih u h

/-- If the text contains the pattern anywhere (with the start-token
language the code's regex actually accepts), the search succeeds. -/
theorem searchPat_of_contains {s : List Char}
    (h : containsPatternWith codeStartProp s) : (searchPat s).isSome = true := by
  obtain ⟨pre, d1, ws1, ws2, d2, post, hdec, hd1, g1, g2, hd2⟩ := h
  obtain ⟨a, b, hm⟩ := matchAt_complete post hd1 g1 g2 hd2
  have hs : s = pre ++ (d1 ++ (ws1 ++ '-' :: (ws2 ++ d2 ++ post))) := by
    rw [hdec]; simp
  rw [hs]
  exact searchPat_complete_sfx pre _ (by rw [hm]; rfl)

/-- A start token of the spec's language is in the code's language. -/
theorem specStart_code {l : List Char} (h : specStartProp l) : codeStartProp l := by
  rcases h with hdd | hend
  · exact ⟨l, [], hdd, Or.inl rfl, by simp⟩
  · obtain ⟨p, y, hp, hy, rfl⟩ := hend
    exact ⟨p, '.' :: y, hp, Or.inr (Or.inr ⟨y, hy, Or.inl rfl⟩), rfl⟩

theorem contains_mono {s : List Char} (h : containsPatternWith specStartProp s) :
    containsPatternWith codeStartProp s := by
  obtain ⟨pre, d1, ws1, ws2, d2, post, hdec, hd1, g1, g2, hd2⟩ := h
  exact ⟨pre, d1, ws1, ws2, d2, post, hdec, specStart_code hd1, g1, g2, hd2⟩

/-- When the pattern fails at every position strictly before `rest`, the
search on `pre ++ rest` is the search on `rest`. -/
theorem searchPat_skip : ∀ (pre rest : List Char),
    (∀ i, i < pre.length → matchAt (List.drop i (pre ++ rest)) = none) →
    searchPat (pre ++ rest) = searchPat rest := by
  intro pre
  induction pre with
  | nil => intro rest _; rfl
  | cons c pre ih =>
    intro rest h
    have h0 := h 0 (by simp)
    rw [List.drop_zero, List.cons_append] at h0
    rw [List.cons_append, searchPat, h0]
    exact ih rest fun i hi => by
      have := h (i + 1) (by simpa using Nat.succ_lt_succ hi)
      rwa [List.cons_append, List.drop_succ_cons] at this

/-- Nonemptiness of the capture groups. -/
theorem codeStartProp_ne_nil {l : List Char} (h : codeStartProp l) : l ≠ [] := by
  obtain ⟨p, tl, ⟨a, b, c, d, _, _, _, _, rfl⟩, _, rfl⟩ := h
  simp

theorem endProp_ne_nil {l : List Char} (h : endProp l) : l ≠ [] := by
  obtain ⟨a, t, rfl, _⟩ := endProp_head h
  simp

theorem specStartProp_length {l : List Char} (h : specStartProp l) :
    l.length = 5 ∨ l.length = 10 := by
  rcases h with ⟨a, b, c, d, _, _, _, _, rfl⟩ | ⟨p, y, hp, hy, rfl⟩
  · left; rfl
  · right
    obtain ⟨a, b, c, d, _, _, _, _, rfl⟩ := hp
    simp [hy.1]

theorem any_map_extend (rows : List (String × List Leaflet)) (key : String)
    (a : List Leaflet) :
    ((rows.map fun p => if p.1 == key then (p.1, p.2 ++ a) else p).any
        fun p => p.1 == key) = rows.any fun p => p.1 == key := by
  induction rows with
  | nil => rfl
  | cons q rows ih =>
    rw [List.map_cons, List.any_cons, List.any_cons, ih]
    by_cases hq : q.1 == key
    · rw [if_pos hq]
    · rw [if_neg hq]

theorem find?_map_fst {α β : Type} (rows : List (String × α)) (key : String)
    (f : String × α → String × β) (hf : ∀ p, (f p).1 = p.1) :
    ((rows.map f).find? fun p => p.1 == key)
      = ((rows.find? fun p => p.1 == key).map f) := by
  rw [List.find?_map]
  have hpred : ((fun p : String × β => p.1 == key) ∘ f) = fun p => p.1 == key := by
    funext p
    simp [Function.comp, hf]
  rw [hpred]

theorem lookupKey_all_neg {α : Type} {rows : List (String × α)} {key : String}
    (h : ∀ p ∈ rows, (p.1 == key) = false) : lookupKey rows key = none := by
  rw [lookupKey, List.find?_eq_none.mpr (by intro x hx; simp [h x hx])]
  rfl
theorem append_not_mem (c : LeafletCollection) (key : String) (data : List Leaflet)
    (h : ∀ p ∈ c.collection, (p.1 == key) = false) :
    (c.append key data).collection = c.collection ++ [(key, data)] := by
  have hc : (c.collection.any fun p => p.1 == key) = false := by
    rw [List.any_eq_false]
    intro x hx
    simp [h x hx]
  rw [LeafletCollection.append, hc]
  rfl

theorem serializeRows_eq (rows : List (String × List Leaflet)) :
    serializeRows rows = rows.map fun p => (p.1, p.2.map Leaflet.to_dict) := by
  induction rows with
  | nil => rfl
  | cons p rows ih =>
    cases p
    rw [serializeRows, ih]
    rfl

theorem scrape_leaflets_nil (site : Site) (url name now : String)
    (h : site.leafletElements url = []) :
    scrape_leaflets site url name now = .ok [] := by
  rw [scrape_leaflets, h]
  rfl

theorem scrapeLinksAux_sound (site : Site) (now : String) :
    ∀ (links : List Link) (acc c : LeafletCollection),
      (links.map fun link => pyStrip link.text).Nodup →
      (∀ link ∈ links, ∀ p ∈ acc.collection, (p.1 == pyStrip link.text) = false) →
      scrapeLinksAux site now links acc = .ok c →
      ∃ rows, c.collection = acc.collection ++ rows ∧
        List.Forall₂ (fun (link : Link) (row : String × List Leaflet) =>
          row.1 = pyStrip link.text ∧
          scrape_leaflets site (base_url ++ link.href) (pyStrip link.text) now
            = .ok row.2) links rows := by
  intro links
  induction links with
  | nil =>
    intro acc c _ _ h
    rw [scrapeLinksAux] at h
    cases h
    exact ⟨[], by simp, List.Forall₂.nil⟩
  | cons link rest ih =>
    intro acc c hnd hfresh h
    rw [scrapeLinksAux] at h
    cases hs : scrape_leaflets site (base_url ++ link.href) (pyStrip link.text) now with
    | error e => rw [hs] at h; exact absurd h (by simp)
    | ok leaflets =>
      rw [hs] at h
      have happ := append_not_mem acc (pyStrip link.text) leaflets
        (hfresh link (by simp))
      have hnd' : (rest.map fun l => pyStrip l.text).Nodup := by
        rw [List.map_cons, List.nodup_cons] at hnd
        exact hnd.2
      have hfresh' : ∀ l ∈ rest,
          ∀ p ∈ (acc.append (pyStrip link.text) leaflets).collection,
          (p.1 == pyStrip l.text) = false := by
        intro l hl p hp
        rw [happ] at hp
        rcases List.mem_append.mp hp with hp | hp
        · exact hfresh l (by simp [hl]) p hp
        · simp only [List.mem_singleton] at hp
          rw [hp]
          have hne : pyStrip link.text ≠ pyStrip l.text := by
            rw [List.map_cons, List.nodup_cons] at hnd
            intro he
            exact hnd.1 (he ▸ List.mem_map_of_mem _ hl)
          simp [hne]
      obtain ⟨rows, hc, hfa⟩ := ih (acc.append (pyStrip link.text) leaflets) c hnd' hfresh' h
      refine ⟨(pyStrip link.text, leaflets) :: rows, ?_, List.Forall₂.cons ⟨rfl, hs⟩ hfa⟩
      rw [hc, happ]
      simp

/-- C2 counterexample: on the text "12.03.-15.04.2024" the code's pattern
matches and captures the start token "12.03." — a shape with a trailing
dot and no year, outside the spec's claimed start-token language of
exactly `DD.DD` or `DD.DD.YYYY`. -/
theorem c2_counterexample :
    parser_date "12.03.-15.04.2024" = ("12.03.", "15.04.2024") ∧
    ¬ specStartProp ("12.03.".data) := by
  constructor
  · rfl
  · intro h
    have hlen : ("12.03.".data).length = 6 := by decide
    rcases specStartProp_length h with h5 | h5 <;> rw [hlen] at h5 <;> simp at h5

/-- C2 amended: the pattern's start token is `DD.DD` followed by an
independently optional dot and an independently optional four-digit year —
so exactly the shapes `DD.DD`, `DD.DD.`, `DD.DD.YYYY` and `DD.DDYYYY` —
and the end token is exactly `DD.DD.YYYY`, the two joined by a hyphen with
optional surrounding whitespace.  No other token shapes are matched (every
successful parse yields tokens of these shapes, verbatim from the text),
and every text built from those shapes is matched. -/
theorem c2_amended_token_language (t : String) (a b : String)
    (hp : parser_date t = (a, b)) (hne : a ≠ "") :
    (codeStartProp a.data ∧ endProp b.data ∧
      ∃ pre ws1 ws2 post,
        t.data = pre ++ (a.data ++ (ws1 ++ '-' :: (ws2 ++ b.data ++ post))) ∧
        (∀ c ∈ ws1, isSpaceC c = true) ∧ (∀ c ∈ ws2, isSpaceC c = true)) ∧
    (∀ d1 ws1 ws2 d2 : List Char, codeStartProp d1 →
      (∀ c ∈ ws1, isSpaceC c = true) → (∀ c ∈ ws2, isSpaceC c = true) →
      endProp d2 →
      parser_date (String.mk (d1 ++ (ws1 ++ '-' :: (ws2 ++ d2)))) ≠ ("", "")) := by
  constructor
  · cases hs : searchPat t.data with
    | none =>
      rw [parser_date, hs] at hp
      exact absurd (congrArg Prod.fst hp.symm) hne
    | some r =>
      obtain ⟨la, lb⟩ := r
      rw [parser_date, hs] at hp
      injection hp with h1 h2
      subst h1
      subst h2
      obtain ⟨pre, ws1, ws2, rr, hdec, g1, g2, hstart, hend⟩ := searchPat_sound hs
      exact ⟨hstart, hend, pre, ws1, ws2, rr, hdec, g1, g2⟩
  · intro d1 ws1 ws2 d2 hd1 g1 g2 hd2 hcontra
    have hcont : containsPatternWith codeStartProp
        (String.mk (d1 ++ (ws1 ++ '-' :: (ws2 ++ d2)))).data :=
      ⟨[], d1, ws1, ws2, d2, [], by simp, hd1, g1, g2, hd2⟩
    have hsome := searchPat_of_contains hcont
    cases hs : searchPat (String.mk (d1 ++ (ws1 ++ '-' :: (ws2 ++ d2)))).data with
    | none => rw [hs] at hsome; exact absurd hsome (by simp)
    | some r =>
      obtain ⟨la, lb⟩ := r
      obtain ⟨_, _, _, _, _, _, _, hstart, _⟩ := searchPat_sound hs
      rw [parser_date, hs] at hcontra
      exact codeStartProp_ne_nil hstart
        (congrArg String.data (congrArg Prod.fst hcontra))

theorem c2_amended_witness :
    (codeStartProp ("01.02" : String).data ∧ endProp ("03.04.2024" : String).data ∧
      ∃ pre ws1 ws2 post,
        ("01.02 - 03.04.2024".data)
          = pre ++ (("01.02" : String).data
              ++ (ws1 ++ '-' :: (ws2 ++ ("03.04.2024" : String).data ++ post))) ∧
        (∀ c ∈ ws1, isSpaceC c = true) ∧ (∀ c ∈ ws2, isSpaceC c = true)) ∧
    (∀ d1 ws1 ws2 d2 : List Char, codeStartProp d1 →
      (∀ c ∈ ws1, isSpaceC c = true) → (∀ c ∈ ws2, isSpaceC c = true) →
      endProp d2 →
      parser_date (String.mk (d1 ++ (ws1 ++ '-' :: (ws2 ++ d2)))) ≠ ("", "")) :=
  c2_amended_token_language "01.02 - 03.04.2024" "01.02" "03.04.2024" rfl (by decide)

/-- C3: for every input text in which the date pattern does not match
anywhere, the parser returns the pair of two empty strings; it is a total
function and never raises. -/
theorem c3_no_match_returns_empty (t : String)
    (h : ¬ containsPatternWith codeStartProp t.data) :
    parser_date t = ("", "") := by
  cases hs : searchPat t.data with
  | none => simp only [parser_date, hs]
  | some r =>
    obtain ⟨la, lb⟩ := r
    obtain ⟨pre, ws1, ws2, rr, hdec, g1, g2, hstart, hend⟩ := searchPat_sound hs
    exact absurd ⟨pre, la, ws1, ws2, lb, rr, by rw [hdec]; simp, hstart, g1, g2, hend⟩ h

theorem c3_witness : parser_date "Angebote ohne Datum" = ("", "") :=
  c3_no_match_returns_empty "Angebote ohne Datum"
    fun hc => absurd (searchPat_of_contains hc) (by decide)

/-- C4: the parser performs a single leftmost match: if the pattern fails
at every position strictly before a split point of the text and matches at
that point, the parser returns exactly that match — any further date
ranges later in the text are ignored (first match, not a scan of all
matches). -/
theorem c4_leftmost_single_match (t : String) (pre rest a b : List Char)
    (hsplit : t.data = pre ++ rest)
    (hnone : ∀ i, i < pre.length → matchAt (List.drop i (pre ++ rest)) = none)
    (hm : matchAt rest = some (a, b)) :
    parser_date t = (String.mk a, String.mk b) := by
  have hrest : searchPat rest = some (a, b) := by
    cases rest with
    | nil => rw [matchAt_nil] at hm; exact absurd hm (by simp)
    | cons c rs => simp only [searchPat, hm]
  rw [parser_date, hsplit, searchPat_skip pre rest hnone, hrest]

theorem c4_witness :
    parser_date "x 01.02 - 03.04.2024; 05.06 - 07.08.2025"
      = ("01.02", "03.04.2024") :=
  c4_leftmost_single_match "x 01.02 - 03.04.2024; 05.06 - 07.08.2025"
    ("x ".data) ("01.02 - 03.04.2024; 05.06 - 07.08.2025".data)
    ("01.02".data) ("03.04.2024".data) (by decide) (by decide) (by decide)

/-- C10: for every input text the parser's result has both components
empty or both nonempty — never exactly one empty component. -/
theorem c10_both_empty_or_both_nonempty (t : String) :
    parser_date t = ("", "") ∨
      ((parser_date t).1 ≠ "" ∧ (parser_date t).2 ≠ "") := by
  cases hs : searchPat t.data with
  | none => exact Or.inl (by simp only [parser_date, hs])
  | some r =>
    obtain ⟨la, lb⟩ := r
    obtain ⟨_, _, _, _, _, _, _, hstart, hend⟩ := searchPat_sound hs
    refine Or.inr ⟨?_, ?_⟩
    · simp only [parser_date, hs]
      intro he
      exact codeStartProp_ne_nil hstart (congrArg String.data he)
    · simp only [parser_date, hs]
      intro he
      exact endProp_ne_nil hend (congrArg String.data he)

/-- C5: a listing fragment with no matching thumbnail image element makes
the field extractor fail hard — the unhandled subscript-on-None error —
for that listing; no default thumbnail value is ever substituted (no
`Leaflet` is produced at all). -/
theorem c5_missing_thumbnail_hard_failure (element : Element)
    (hypermarket_name now : String) (h : element.pictureImg = none) :
    extract_leaflet_data element hypermarket_name now
      = .error .missingThumbnail := by
  rw [extract_leaflet_data, h]

theorem c5_witness :
    extract_leaflet_data ⟨none, some ⟨[], "Angebote 01.03 - 07.03.2024"⟩⟩
      "ShopA" "2024-03-01 00:00:00" = .error .missingThumbnail :=
  c5_missing_thumbnail_hard_failure ⟨none, some ⟨[], "Angebote 01.03 - 07.03.2024"⟩⟩
    "ShopA" "2024-03-01 00:00:00" rfl

/-- C6: `append` is associative for a fixed key: appending one record list
and then another yields the same aggregate as appending their
concatenation in a single call. -/
theorem c6_append_assoc (c : LeafletCollection) (key : String)
    (a b : List Leaflet) :
    (c.append key a).append key b = c.append key (a ++ b) := by
  obtain ⟨rows⟩ := c
  by_cases h : (rows.any fun p => p.1 == key) = true
  · have e1 : LeafletCollection.append ⟨rows⟩ key a
        = ⟨rows.map fun p => if p.1 == key then (p.1, p.2 ++ a) else p⟩ := by
      rw [LeafletCollection.append]
      exact if_pos h
    have h2 : ((rows.map fun p => if p.1 == key then (p.1, p.2 ++ a) else p).any
        fun p => p.1 == key) = true := by
      rw [any_map_extend]
      exact h
    have e2 : LeafletCollection.append
          ⟨rows.map fun p => if p.1 == key then (p.1, p.2 ++ a) else p⟩ key b
        = ⟨(rows.map fun p => if p.1 == key then (p.1, p.2 ++ a) else p).map
            fun p => if p.1 == key then (p.1, p.2 ++ b) else p⟩ := by
      rw [LeafletCollection.append]
      exact if_pos h2
    have e3 : LeafletCollection.append ⟨rows⟩ key (a ++ b)
        = ⟨rows.map fun p => if p.1 == key then (p.1, p.2 ++ (a ++ b)) else p⟩ := by
      rw [LeafletCollection.append]
      exact if_pos h
    rw [e1, e2, e3]
    congr 1
    rw [List.map_map]
    refine List.map_congr_left fun p _ => ?_
    by_cases hp : (p.1 == key) = true
    · simp [Function.comp, hp, List.append_assoc]
    · simp [Function.comp, hp]
  · have hall : ∀ p ∈ rows, (p.1 == key) = false := by
      have h' : (rows.any fun p => p.1 == key) = false := Bool.eq_false_iff.mpr h
      rw [List.any_eq_false] at h'
      intro p hp
      simpa using h' p hp
    have e1 : LeafletCollection.append ⟨rows⟩ key a = ⟨rows ++ [(key, a)]⟩ := by
      rw [LeafletCollection.append]
      exact if_neg h
    have h2 : ((rows ++ [(key, a)]).any fun p => p.1 == key) = true := by
      simp
    have e2 : LeafletCollection.append ⟨rows ++ [(key, a)]⟩ key b
        = ⟨(rows ++ [(key, a)]).map
            fun p => if p.1 == key then (p.1, p.2 ++ b) else p⟩ := by
      rw [LeafletCollection.append]
      exact if_pos h2
    have e3 : LeafletCollection.append ⟨rows⟩ key (a ++ b)
        = ⟨rows ++ [(key, a ++ b)]⟩ := by
      rw [LeafletCollection.append]
      exact if_neg h
    rw [e1, e2, e3]
    congr 1
    rw [List.map_append]
    congr 1
    · conv_rhs => rw [← List.map_id rows]
      refine List.map_congr_left fun p hp => ?_
      simp [hall p hp]
    · simp
/-- C7: `append` inserts the key with the empty sequence when absent and
then extends that key's sequence with all given records in order, leaving
every other key untouched; it is a total function with no failure modes
(the Python method mutates in place and returns None; here the updated
state is returned). -/
theorem c7_append_extends (c : LeafletCollection) (key : String)
    (data : List Leaflet) :
    lookupKey (c.append key data).collection key
      = some (((lookupKey c.collection key).getD []) ++ data) ∧
    ∀ k, k ≠ key → lookupKey (c.append key data).collection k
      = lookupKey c.collection k := by
  obtain ⟨rows⟩ := c
  have hfst : ∀ p : String × List Leaflet,
      ((if p.1 == key then (p.1, p.2 ++ data) else p) : String × List Leaflet).1
        = p.1 := by
    intro p
    by_cases hp : (p.1 == key) = true
    · rw [if_pos hp]
    · rw [if_neg hp]
  by_cases h : (rows.any fun p => p.1 == key) = true
  · have e1 : LeafletCollection.append ⟨rows⟩ key data
        = ⟨rows.map fun p => if p.1 == key then (p.1, p.2 ++ data) else p⟩ := by
      rw [LeafletCollection.append]
      exact if_pos h
    rw [List.any_eq_true] at h
    obtain ⟨q0, hq0, hq0k⟩ := h
    rcases hq : rows.find? fun p => p.1 == key with _ | q
    · exact absurd hq0k (by simpa using List.find?_eq_none.mp hq q0 hq0)
    have hqk : (q.1 == key) = true := by simpa using List.find?_some hq
    constructor
    · rw [e1]
      show lookupKey _ key = _
      have hq1 : q.1 = key := by simpa using hqk
      rw [lookupKey, lookupKey, find?_map_fst rows key _ hfst, hq]
      simp [hq1]
    · intro k hk
      rw [e1]
      show lookupKey _ k = _
      rw [lookupKey, lookupKey, find?_map_fst rows k _ hfst]
      cases hq' : rows.find? fun p => p.1 == k with
      | none => rfl
      | some q' =>
        have hq'k : (q'.1 == k) = true := by simpa using List.find?_some hq'
        have hq'1 : q'.1 = k := by simpa using hq'k
        simp [hq'1, hk]
  · have hall : ∀ p ∈ rows, (p.1 == key) = false := by
      have h' : (rows.any fun p => p.1 == key) = false := Bool.eq_false_iff.mpr h
      rw [List.any_eq_false] at h'
      intro p hp
      simpa using h' p hp
    have e1 : LeafletCollection.append ⟨rows⟩ key data
        = ⟨rows ++ [(key, data)]⟩ := by
      rw [LeafletCollection.append]
      exact if_neg h
    have hnone : (rows.find? fun p => p.1 == key) = none :=
      List.find?_eq_none.mpr fun x hx => by simp [hall x hx]
    constructor
    · rw [e1]
      show lookupKey _ key = _
      rw [lookupKey, List.find?_append, hnone, lookupKey, hnone]
      simp
    · intro k hk
      rw [e1]
      show lookupKey _ k = _
      rw [lookupKey, List.find?_append, lookupKey]
      have hsing : ([((key, data) : String × List Leaflet)].find?
          fun p => p.1 == k) = none := by
        have : (key == k) = false := by simp [Ne.symm hk]
        simp [this]
      rw [hsing]
      cases rows.find? fun p => p.1 == k <;> rfl

theorem c7_witness :
    lookupKey ((sampleCollection.append "ShopA" [sampleLeaflet "/img3.jpg"]).collection)
        "ShopA"
      = some (((lookupKey sampleCollection.collection "ShopA").getD [])
          ++ [sampleLeaflet "/img3.jpg"]) ∧
    lookupKey ((sampleCollection.append "ShopA" [sampleLeaflet "/img3.jpg"]).collection)
        "ShopB"
      = lookupKey sampleCollection.collection "ShopB" :=
  ⟨(c7_append_extends sampleCollection "ShopA" [sampleLeaflet "/img3.jpg"]).1,
   (c7_append_extends sampleCollection "ShopA" [sampleLeaflet "/img3.jpg"]).2
     "ShopB" (by decide)⟩

/-- C8: serialization keeps the keys in stored order, maps each key to
that key's records in their stored order, and converts each record to an
object with exactly the six string keys in the fixed order
title, thumbnail, shop_name, valid_from, valid_to, parsed_time. -/
theorem c8_serialize_shape (c : LeafletCollection) :
    (c.serialize.map Prod.fst = c.collection.map Prod.fst) ∧
    (∀ key, lookupKey c.serialize key
        = (lookupKey c.collection key).map fun recs => recs.map Leaflet.to_dict) ∧
    (∀ l : Leaflet, (Leaflet.to_dict l).map Prod.fst
        = ["title", "thumbnail", "shop_name", "valid_from", "valid_to",
           "parsed_time"]) := by
  refine ⟨?_, ?_, fun l => rfl⟩
  · rw [LeafletCollection.serialize, serializeRows_eq, List.map_map]
    exact List.map_congr_left fun p _ => rfl
  · intro key
    rw [LeafletCollection.serialize, serializeRows_eq, lookupKey, lookupKey,
      find?_map_fst c.collection key (fun p => (p.1, p.2.map Leaflet.to_dict))
        fun p => rfl]
    cases c.collection.find? fun p => p.1 == key <;> rfl

/-- C9: orchestration processes retailers exactly in the order their links
appear on the directory page, appending one row per retailer holding that
retailer's full record list (given distinct stripped retailer names, the
aggregate's rows pair up one-to-one and in order with the links); a
retailer whose listing page yields zero fragments is still appended, with
the empty list, and so appears in the output with an empty array. -/
theorem c9_orchestration (site : Site) (now : String) (c : LeafletCollection)
    (hnd : (site.hypermarketLinks.map fun link => pyStrip link.text).Nodup)
    (h : scrape_all_leaflets site now = .ok c) :
    List.Forall₂ (fun (link : Link) (row : String × List Leaflet) =>
        row.1 = pyStrip link.text ∧
        scrape_leaflets site (base_url ++ link.href) (pyStrip link.text) now
          = .ok row.2 ∧
        (site.leafletElements (base_url ++ link.href) = [] → row.2 = []))
      site.hypermarketLinks c.collection := by
  obtain ⟨rows, hc, hfa⟩ := scrapeLinksAux_sound site now site.hypermarketLinks
    ⟨[]⟩ c hnd (fun l hl p hp => absurd hp (by simp)) h
  rw [hc]
  have hnil : (⟨[]⟩ : LeafletCollection).collection ++ rows = rows := by simp
  rw [hnil]
  refine List.Forall₂.imp ?_ hfa
  intro link row hr
  refine ⟨hr.1, hr.2, fun hempty => ?_⟩
  have h0 := scrape_leaflets_nil site (base_url ++ link.href) (pyStrip link.text)
    now hempty
  rw [hr.2] at h0
  exact Except.ok.inj h0

theorem c9_witness :
    List.Forall₂ (fun (link : Link) (row : String × List Leaflet) =>
        row.1 = pyStrip link.text ∧
        scrape_leaflets sampleSite (base_url ++ link.href) (pyStrip link.text)
          "2024-03-01 00:00:00" = .ok row.2 ∧
        (sampleSite.leafletElements (base_url ++ link.href) = [] → row.2 = []))
      sampleSite.hypermarketLinks
      (LeafletCollection.mk
        [("ShopA", [sampleLeaflet "/img1.jpg"]), ("ShopB", [])]).collection :=
  c9_orchestration sampleSite "2024-03-01 00:00:00"
    (LeafletCollection.mk
      [("ShopA", [sampleLeaflet "/img1.jpg"]), ("ShopB", [])])
    (by decide) rfl

/-- C1: for every input text containing a date-range pattern — a start
token `DD.DD` or `DD.DD.YYYY`, a hyphen with optional surrounding
whitespace, and an end token `DD.DD.YYYY` — the parser succeeds and
returns exactly the two substrings the regex matched, verbatim: the two
returned strings occur literally, contiguously and in order in the text
(separated only by the matched hyphen and whitespace), with no
normalization and no year back-fill onto the start date. -/
theorem c1_verbatim_matched_substrings (t : String)
    (h : containsPatternWith specStartProp t.data) :
    ∃ a b : String, parser_date t = (a, b) ∧
      ∃ pre ws1 ws2 post,
        t.data = pre ++ (a.data ++ (ws1 ++ '-' :: (ws2 ++ b.data ++ post))) ∧
        (∀ c ∈ ws1, isSpaceC c = true) ∧ (∀ c ∈ ws2, isSpaceC c = true) ∧
        codeStartProp a.data ∧ endProp b.data := by
  have hsome := searchPat_of_contains (contains_mono h)
  cases hs : searchPat t.data with
  | none => rw [hs] at hsome; exact absurd hsome (by simp)
  | some r =>
    obtain ⟨la, lb⟩ := r
    obtain ⟨pre, ws1, ws2, rr, hdec, g1, g2, hstart, hend⟩ := searchPat_sound hs
    exact ⟨String.mk la, String.mk lb, by simp only [parser_date, hs],
      pre, ws1, ws2, rr, hdec, g1, g2, hstart, hend⟩

theorem c1_witness :
    containsPatternWith specStartProp ("Angebote 01.03 - 07.03.2024".data) ∧
    ∃ a b : String, parser_date "Angebote 01.03 - 07.03.2024" = (a, b) ∧
      ∃ pre ws1 ws2 post,
        ("Angebote 01.03 - 07.03.2024".data)
          = pre ++ (a.data ++ (ws1 ++ '-' :: (ws2 ++ b.data ++ post))) ∧
        (∀ c ∈ ws1, isSpaceC c = true) ∧ (∀ c ∈ ws2, isSpaceC c = true) ∧
        codeStartProp a.data ∧ endProp b.data :=
  have hcont : containsPatternWith specStartProp ("Angebote 01.03 - 07.03.2024".data) :=
    ⟨"Angebote ".data, "01.03".data, [' '], [' '], "07.03.2024".data, [],
     by decide,
     Or.inl ⟨'0', '1', '0', '3', by decide, by decide, by decide, by decide, by decide⟩,
     by decide, by decide,
     ⟨"07.03".data, "2024".data,
      ⟨'0', '7', '0', '3', by decide, by decide, by decide, by decide, by decide⟩,
      ⟨by decide, by decide⟩, by decide⟩⟩
  ⟨hcont, c1_verbatim_matched_substrings _ hcont⟩
